import Mathlib

/-!
Shallow embedding of the Spectra orthogonalization engine
(`include/Spectra/LinAlg/Orthogonalization.h`) and the scalar numeric
traits (`include/Spectra/Util/TypeTraits.h`), together with proofs of the
specified properties.

A matrix is represented by its columns: `Cols n = ℕ → (Fin n → ℝ)`, where
index `j` holds column `j`; a routine operating on an `n × m` matrix only
ever reads and writes columns `0 … m-1`.  The Eigen primitives consumed
by the source (`dot`, `norm`, `normalize`, column updates) are embedded
as exact real arithmetic.  `Eigen::Index` arguments are embedded as `ℤ`
and the `assert` precondition guard as an `Option` result (`none` =
assertion failure).
-/

namespace Spectra

/-- A column vector of height `n` with real entries. -/
abbrev Vec (n : ℕ) := Fin n → ℝ

/-- A matrix given by its columns; only columns `0 … m-1` are meaningful
for an `n × m` matrix. -/
abbrev Cols (n : ℕ) := ℕ → Vec n

/-- Eigen's (non-conjugating) dot product of two real columns,
`u.transpose() * v` and also `u.dot(v)` for real scalars. -/
def dotp {n : ℕ} (u v : Vec n) : ℝ := ∑ i, u i * v i

/-- Eigen's `MatrixBase::normalize()`: divide by the Euclidean norm if the
squared norm is positive, otherwise leave the vector unchanged
(`if(z > 0) derived() /= sqrt(z)`). -/
noncomputable def normalizeVec {n : ℕ} (v : Vec n) : Vec n :=
  if 0 < dotp v v then (Real.sqrt (dotp v v))⁻¹ • v else v

/-- Eigen's `VectorwiseOp::normalize()` applied to one column: unguarded
division of the column by its Euclidean norm. -/
noncomputable def colwiseNormalizeVec {n : ℕ} (v : Vec n) : Vec n :=
  (Real.sqrt (dotp v v))⁻¹ • v

/-- `assert_leftColsToSkip` (Orthogonalization.h, lines 19–24): the skip
count must be nonnegative and smaller than the number of columns. -/
def leftColsToSkipOk (m : ℕ) (leftColsToSkip : ℤ) : Prop :=
  (m : ℤ) > leftColsToSkip ∧ 0 ≤ leftColsToSkip

instance (m : ℕ) (L : ℤ) : Decidable (leftColsToSkipOk m L) := by
  unfold leftColsToSkipOk; infer_instance

/-- `treatFirstCol` (lines 31–40): if no columns are skipped, normalize
column 0 in place and report an effective skip of 1. -/
noncomputable def treatFirstCol {n : ℕ} (A : Cols n) (leftColsToSkip : ℕ) :
    Cols n × ℕ :=
  if leftColsToSkip = 0 then (Function.update A 0 (normalizeVec (A 0)), 1)
  else (A, leftColsToSkip)

/-- A `for (k = k₀; k < k₀ + t; ++k) body` loop over column indices,
threading the matrix state. -/
def forLoop {α : Type*} (f : α → ℕ → α) : ℕ → ℕ → α → α
  | _, 0, M => M
  | k, t + 1, M => forLoop f (k + 1) t (f M k)

/-- One iteration of the classical Gram–Schmidt loop (lines 87–91):
`col(j) -= leftCols(j) * (leftCols(j).transpose() * col(j))`, then
`col(j).normalize()`. -/
noncomputable def gsStep {n : ℕ} (M : Cols n) (j : ℕ) : Cols n :=
  let B := Function.update M j
    (M j - ∑ i ∈ Finset.range j, dotp (M i) (M j) • M i)
  Function.update B j (normalizeVec (B j))

/-- `GS_orthogonalisation` (lines 82–92). -/
noncomputable def GS_orthogonalisation {n : ℕ} (m : ℕ) (A : Cols n)
    (leftColsToSkip : ℤ) : Option (Cols n) :=
  if leftColsToSkipOk m leftColsToSkip then
    let p := treatFirstCol A leftColsToSkip.toNat
    some (forLoop gsStep p.2 (m - p.2) p.1)
  else none

/-- The inner loop of modified Gram–Schmidt (lines 69–72): for
`j = 0 … j₀-1` in order, `col(k) -= col(j).dot(col(k)) * col(j)`. -/
noncomputable def mgsProj {n : ℕ} (k : ℕ) (M : Cols n) : ℕ → Cols n
  | 0 => M
  | j + 1 =>
    let B := mgsProj k M j
    Function.update B k (B k - dotp (B j) (B k) • B j)

/-- One iteration of the outer modified Gram–Schmidt loop (lines 67–74):
apply all projections `j < k` sequentially, then `col(k).normalize()`. -/
noncomputable def mgsStep {n : ℕ} (M : Cols n) (k : ℕ) : Cols n :=
  let B := mgsProj k M k
  Function.update B k (normalizeVec (B k))

/-- `MGS_orthogonalisation` (lines 62–75). -/
noncomputable def MGS_orthogonalisation {n : ℕ} (m : ℕ) (A : Cols n)
    (leftColsToSkip : ℤ) : Option (Cols n) :=
  if leftColsToSkipOk m leftColsToSkip then
    let p := treatFirstCol A leftColsToSkip.toNat
    some (forLoop mgsStep p.2 (m - p.2) p.1)
  else none

/-- `twice_is_enough_orthogonalisation` (lines 98–103): apply classical
Gram–Schmidt twice with the identical skip parameter. -/
noncomputable def twice_is_enough_orthogonalisation {n : ℕ} (m : ℕ)
    (A : Cols n) (leftColsToSkip : ℤ) : Option (Cols n) :=
  (GS_orthogonalisation m A leftColsToSkip).bind fun B =>
    GS_orthogonalisation m B leftColsToSkip

/-- Modelled from the spec: `QR_orthogonalisation` (lines 45–55) calls
`Eigen::HouseholderQR`, a kernel of the external dense linear-algebra
library that is not part of this repository's sources.  Per spec §4.6 the
block is replaced by the first `m'` columns of the orthogonal factor `Q`:
"the full block passed in becomes an orthonormal set spanning the same
column space".  For a block of full column rank this is exactly (up to
per-column sign, which no specified property observes) the batched
Gram–Schmidt orthonormalisation of the columns, which is how we model it:
column `j` of the result is the normalized residual of column `j` against
the preceding result columns. -/
noncomputable def QR_orthogonalisation {n : ℕ} (p : ℕ) (A : Cols n) :
    Cols n :=
  forLoop gsStep 0 p A

/-- The mutation performed by `partial_orthogonalisation` (lines 119–121):
the right block loses its projection onto the left block in one batched
operation (`rightCols -= leftCols * (leftCols.transpose() * rightCols)`,
acting columnwise) and each right column is normalized unguardedly
(`rightCols.colwise().normalize()`). -/
noncomputable def partialCore {n : ℕ} (m L : ℕ) (A : Cols n) : Cols n :=
  fun k =>
    if k < L ∨ m ≤ k then A k
    else colwiseNormalizeVec
      (A k - ∑ j ∈ Finset.range L, dotp (A j) (A k) • A j)

/-- `partial_orthogonalisation` (lines 111–122): after the precondition
check, a zero skip count returns immediately; otherwise the batched
projection / columnwise normalization of the right block is performed. -/
noncomputable def partial_orthogonalisation {n : ℕ} (m : ℕ) (A : Cols n)
    (leftColsToSkip : ℤ) : Option (Cols n) :=
  if leftColsToSkipOk m leftColsToSkip then
    if leftColsToSkip = 0 then some A
    else some (partialCore m leftColsToSkip.toNat A)
  else none

/-- `JensWehner_orthogonalisation` (lines 131–140): after the
precondition check, run `partial_orthogonalisation`, then QR-orthogonalize
the right block in place (through an `Eigen::Ref`) and write it back. -/
noncomputable def JensWehner_orthogonalisation {n : ℕ} (m : ℕ) (A : Cols n)
    (leftColsToSkip : ℤ) : Option (Cols n) :=
  if leftColsToSkipOk m leftColsToSkip then
    (partial_orthogonalisation m A leftColsToSkip).map fun P =>
      let L := leftColsToSkip.toNat
      let Q := QR_orthogonalisation (m - L) fun j => P (L + j)
      fun k => if k < L ∨ m ≤ k then P k else Q (k - L)
  else none

/-! ### Algebra of the embedded primitives -/

lemma dotp_comm {n : ℕ} (u v : Vec n) : dotp u v = dotp v u := by
  simp [dotp, mul_comm]

lemma dotp_zero_right {n : ℕ} (u : Vec n) : dotp u 0 = 0 := by
  simp [dotp]

lemma dotp_zero_left {n : ℕ} (u : Vec n) : dotp 0 u = 0 := by
  simp [dotp]

lemma dotp_add_right {n : ℕ} (u v w : Vec n) :
    dotp u (v + w) = dotp u v + dotp u w := by
  simp [dotp, mul_add, Finset.sum_add_distrib]

lemma dotp_sub_right {n : ℕ} (u v w : Vec n) :
    dotp u (v - w) = dotp u v - dotp u w := by
  simp [dotp, mul_sub, Finset.sum_sub_distrib]

lemma dotp_smul_right {n : ℕ} (c : ℝ) (u v : Vec n) :
    dotp u (c • v) = c * dotp u v := by
  simp [dotp, Finset.mul_sum, mul_comm, mul_left_comm]

lemma dotp_smul_left {n : ℕ} (c : ℝ) (u v : Vec n) :
    dotp (c • u) v = c * dotp u v := by
  rw [dotp_comm, dotp_smul_right, dotp_comm]

lemma dotp_sum_right {n : ℕ} (u : Vec n) (s : Finset ℕ) (f : ℕ → Vec n) :
    dotp u (∑ j ∈ s, f j) = ∑ j ∈ s, dotp u (f j) := by
  unfold dotp
  rw [Finset.sum_comm]
  exact Finset.sum_congr rfl fun i _ => by
    simp [Finset.mul_sum]

lemma dotp_self_nonneg {n : ℕ} (v : Vec n) : 0 ≤ dotp v v :=
  Finset.sum_nonneg fun i _ => mul_self_nonneg (v i)

lemma dotp_self_eq_zero {n : ℕ} {v : Vec n} : dotp v v = 0 ↔ v = 0 := by
  constructor
  · intro h
    funext i
    have := (Finset.sum_eq_zero_iff_of_nonneg
      (fun i _ => mul_self_nonneg (v i))).mp h i (Finset.mem_univ i)
    exact mul_self_eq_zero.mp this
  · rintro rfl; exact dotp_zero_left 0

lemma dotp_self_pos {n : ℕ} {v : Vec n} (h : v ≠ 0) : 0 < dotp v v :=
  lt_of_le_of_ne (dotp_self_nonneg v) fun h0 => h (dotp_self_eq_zero.mp h0.symm)

lemma sqrt_dotp_inv_pos {n : ℕ} {v : Vec n} (h : v ≠ 0) :
    0 < (Real.sqrt (dotp v v))⁻¹ :=
  inv_pos.mpr (Real.sqrt_pos.mpr (dotp_self_pos h))

lemma normalizeVec_of_ne_zero {n : ℕ} {v : Vec n} (h : v ≠ 0) :
    normalizeVec v = (Real.sqrt (dotp v v))⁻¹ • v := by
  rw [normalizeVec, if_pos (dotp_self_pos h)]

lemma normalizeVec_zero {n : ℕ} : normalizeVec (0 : Vec n) = 0 := by
  simp [normalizeVec, dotp_zero_left]

lemma dotp_smul_smul_self {n : ℕ} {v : Vec n} (h : v ≠ 0) :
    dotp ((Real.sqrt (dotp v v))⁻¹ • v) ((Real.sqrt (dotp v v))⁻¹ • v) = 1 := by
  have hd : 0 < dotp v v := dotp_self_pos h
  rw [dotp_smul_left, dotp_smul_right, ← mul_assoc, ← mul_inv,
    Real.mul_self_sqrt hd.le, inv_mul_cancel₀ hd.ne']

lemma normalizeVec_dot_self {n : ℕ} {v : Vec n} (h : v ≠ 0) :
    dotp (normalizeVec v) (normalizeVec v) = 1 := by
  rw [normalizeVec_of_ne_zero h]; exact dotp_smul_smul_self h

lemma colwiseNormalizeVec_eq_normalizeVec {n : ℕ} {v : Vec n} (h : v ≠ 0) :
    colwiseNormalizeVec v = normalizeVec v := by
  rw [normalizeVec_of_ne_zero h, colwiseNormalizeVec]

/-! ### Spans of column prefixes, orthonormality, independence -/

/-- The span of columns `0 … s-1`. -/
def colSpan {n : ℕ} (A : Cols n) (s : ℕ) : Submodule ℝ (Vec n) :=
  Submodule.span ℝ (A '' Set.Iio s)

lemma colSpan_mono {n : ℕ} (A : Cols n) {s t : ℕ} (h : s ≤ t) :
    colSpan A s ≤ colSpan A t :=
  Submodule.span_mono (Set.image_subset _ (Set.Iio_subset_Iio h))

lemma col_mem_colSpan {n : ℕ} (A : Cols n) {j s : ℕ} (h : j < s) :
    A j ∈ colSpan A s :=
  Submodule.subset_span ⟨j, h, rfl⟩

lemma dotp_eq_zero_of_mem_colSpan {n : ℕ} {A : Cols n} {s : ℕ} {u x : Vec n}
    (h : ∀ j, j < s → dotp u (A j) = 0) (hx : x ∈ colSpan A s) :
    dotp u x = 0 := by
  induction hx using Submodule.span_induction with
  | mem y hy => obtain ⟨j, hj, rfl⟩ := hy; exact h j hj
  | zero => exact dotp_zero_right u
  | add y z _ _ hy hz => rw [dotp_add_right, hy, hz, add_zero]
  | smul c y _ hy => rw [dotp_smul_right, hy, mul_zero]

/-- Columns `0 … s-1` are mutually orthonormal. -/
def OrthoCols {n : ℕ} (B : Cols n) (s : ℕ) : Prop :=
  ∀ j k, j < s → k < s → dotp (B j) (B k) = if j = k then 1 else 0

/-- No column among `0 … m-1` lies in the span of the columns before it:
the shape of linear independence the Gram–Schmidt recurrences consume. -/
def IndepCols {n : ℕ} (A : Cols n) (m : ℕ) : Prop :=
  ∀ k, k < m → A k ∉ colSpan A k

lemma IndepCols.of_linearIndependent {n m : ℕ} {A : Cols n}
    (hli : LinearIndependent ℝ fun j : Fin m => A j) : IndepCols A m := by
  intro k hk hmem
  have himg : A '' Set.Iio k =
      (fun j : Fin m => A j) '' {j : Fin m | (j : ℕ) < k} := by
    ext x
    constructor
    · rintro ⟨j, hj, rfl⟩
      exact ⟨⟨j, hj.trans hk⟩, hj, rfl⟩
    · rintro ⟨j, hj, rfl⟩
      exact ⟨j, hj, rfl⟩
  exact hli.not_mem_span_image (x := ⟨k, hk⟩)
    (s := {j : Fin m | (j : ℕ) < k}) (by simp) (by rwa [colSpan, himg] at hmem)

/-- Subtracting the batched projection onto `s` mutually orthonormal
columns produces a residual orthogonal to each of those columns. -/
lemma dotp_residual_zero {n : ℕ} {M : Cols n} {s : ℕ}
    (hortho : OrthoCols M s) (v : Vec n) {i : ℕ} (hi : i < s) :
    dotp (M i) (v - ∑ j ∈ Finset.range s, dotp (M j) v • M j) = 0 := by
  rw [dotp_sub_right, dotp_sum_right]
  have hcong : ∀ j ∈ Finset.range s,
      dotp (M i) (dotp (M j) v • M j) =
        if i = j then dotp (M i) v else 0 := by
    intro j hj
    rw [dotp_smul_right, hortho i j hi (Finset.mem_range.mp hj)]
    by_cases hij : i = j <;> simp [hij]
  rw [Finset.sum_congr rfl hcong,
    Finset.sum_ite_eq (Finset.range s) i fun _ => dotp (M i) v,
    if_pos (Finset.mem_range.mpr hi), sub_self]

/-- The batched projection itself lies in the span of the first `s`
columns. -/
lemma projection_mem_colSpan {n : ℕ} (M : Cols n) (s : ℕ) (v : Vec n) :
    (∑ j ∈ Finset.range s, dotp (M j) v • M j) ∈ colSpan M s :=
  Submodule.sum_mem _ fun _ hj =>
    Submodule.smul_mem _ _ (col_mem_colSpan M (Finset.mem_range.mp hj))

/-! ### The Gram–Schmidt loop invariant -/

/-- State of the orthogonalization loops when about to process column `k`:
columns before `k` are mutually orthonormal, columns from `k` on still hold
their input values, and each processed column lies in the span of the input
columns up to its own index. -/
structure StepInv {n : ℕ} (A : Cols n) (k : ℕ) (M : Cols n) : Prop where
  ortho : OrthoCols M k
  untouched : ∀ j, k ≤ j → M j = A j
  inSpan : ∀ j, j < k → M j ∈ colSpan A (j + 1)

lemma stepInv_start {n : ℕ} (A : Cols n) : StepInv A 0 A :=
  ⟨fun j _ hj => absurd hj (Nat.not_lt_zero j), fun _ _ => rfl,
    fun j hj => absurd hj (Nat.not_lt_zero j)⟩

lemma forLoop_inv {n : ℕ} {A : Cols n} {m : ℕ} {f : Cols n → ℕ → Cols n}
    (hf : ∀ M k, k < m → StepInv A k M → StepInv A (k + 1) (f M k)) :
    ∀ t k M, k + t ≤ m → StepInv A k M →
      StepInv A (k + t) (forLoop f k t M) := by
  intro t
  induction t with
  | zero => intro k M _ h; simpa [forLoop] using h
  | succ t ih =>
    intro k M hkt h
    have h1 : StepInv A (k + 1) (f M k) := hf M k (by omega) h
    have h2 := ih (k + 1) (f M k) (by omega) h1
    rw [forLoop]
    have : k + (t + 1) = k + 1 + t := by omega
    rw [this]
    exact h2

/-- The core step: replacing column `k` by the normalization of a vector
`w` that differs from the input column `A k` by an element of the span of
the earlier input columns, and that is orthogonal to the processed columns,
re-establishes the invariant at `k + 1`. -/
lemma StepInv.update_normalize {n : ℕ} {A M : Cols n} {k m : ℕ}
    (hk : k < m) (hA : IndepCols A m) (inv : StepInv A k M) {w : Vec n}
    (hwu : M k - w ∈ colSpan A k)
    (hworth : ∀ i, i < k → dotp (M i) w = 0) :
    StepInv A (k + 1) (Function.update M k (normalizeVec w)) := by
  have hMk : M k = A k := inv.untouched k le_rfl
  have hw0 : w ≠ 0 := by
    intro h
    apply hA k hk
    have : M k - w = M k := by rw [h, sub_zero]
    rw [this, hMk] at hwu
    exact hwu
  have hnorm : normalizeVec w = (Real.sqrt (dotp w w))⁻¹ • w :=
    normalizeVec_of_ne_zero hw0
  refine ⟨?_, ?_, ?_⟩
  · intro j k' hj hk'
    by_cases hjk : j = k
    · by_cases hk'k : k' = k
      · rw [hjk, hk'k, Function.update_same, normalizeVec_dot_self hw0,
          if_pos rfl]
      · have hk'' : k' < k := by omega
        rw [hjk, Function.update_same, Function.update_noteq hk'k, hnorm,
          dotp_smul_left, dotp_comm w (M k'), hworth k' hk'', mul_zero,
          if_neg (by omega : ¬ k = k')]
    · by_cases hk'k : k' = k
      · have hj' : j < k := by omega
        rw [hk'k, Function.update_noteq hjk, Function.update_same, hnorm,
          dotp_smul_right, hworth j hj', mul_zero,
          if_neg (by omega : ¬ j = k)]
      · have hj' : j < k := by omega
        have hk'' : k' < k := by omega
        rw [Function.update_noteq hjk, Function.update_noteq hk'k]
        exact inv.ortho j k' hj' hk''
  · intro j hj
    rw [Function.update_noteq (by omega : j ≠ k)]
    exact inv.untouched j (by omega)
  · intro j hj
    by_cases hjk : j = k
    · rw [hjk, Function.update_same, hnorm]
      refine Submodule.smul_mem _ _ ?_
      have hAk : A k ∈ colSpan A (k + 1) := col_mem_colSpan A (by omega)
      have hu : M k - w ∈ colSpan A (k + 1) :=
        colSpan_mono A (by omega) hwu
      have hrepr : w = A k - (M k - w) := by
        rw [← hMk]; abel
      rw [hrepr]
      exact Submodule.sub_mem _ hAk hu
    · have hj' : j < k := by omega
      rw [Function.update_noteq hjk]
      exact inv.inSpan j hj'

/-- Unfolding `gsStep` to a single column update. -/
lemma gsStep_eq {n : ℕ} (M : Cols n) (k : ℕ) :
    gsStep M k = Function.update M k
      (normalizeVec (M k - ∑ i ∈ Finset.range k, dotp (M i) (M k) • M i)) := by
  unfold gsStep
  rw [Function.update_idem, Function.update_same]

/-- One classical Gram–Schmidt step preserves the invariant. -/
lemma gsStep_inv {n : ℕ} {A : Cols n} {m : ℕ} (hA : IndepCols A m) :
    ∀ M k, k < m → StepInv A k M → StepInv A (k + 1) (gsStep M k) := by
  intro M k hk inv
  rw [gsStep_eq]
  set w := M k - ∑ i ∈ Finset.range k, dotp (M i) (M k) • M i with hw
  refine inv.update_normalize hk hA ?_ ?_
  · have : M k - w = ∑ i ∈ Finset.range k, dotp (M i) (M k) • M i := by
      rw [hw]; abel
    rw [this]
    refine Submodule.sum_mem _ fun i hi => Submodule.smul_mem _ _ ?_
    exact colSpan_mono A (Finset.mem_range.mp hi) (inv.inSpan i (Finset.mem_range.mp hi))
  · intro i hi
    rw [hw]
    exact dotp_residual_zero inv.ortho (M k) hi

/-- The modified Gram–Schmidt inner loop: columns other than `k` are
untouched, the running column `k` stays within `A k + span` of the earlier
input columns, and is orthogonal to every column already projected out. -/
lemma mgsProj_spec {n : ℕ} {A M : Cols n} {k : ℕ} (inv : StepInv A k M) :
    ∀ j, j ≤ k →
      (∀ i, i ≠ k → mgsProj k M j i = M i) ∧
      (M k - mgsProj k M j k ∈ colSpan A k) ∧
      (∀ i, i < j → dotp (M i) (mgsProj k M j k) = 0) := by
  intro j
  induction j with
  | zero =>
    intro _
    exact ⟨fun i _ => rfl, by simp [mgsProj],
      fun i hi => absurd hi (Nat.not_lt_zero i)⟩
  | succ j ih =>
    intro hjk
    obtain ⟨ha, hb, hc⟩ := ih (by omega)
    have hjlt : j < k := by omega
    have hBj : mgsProj k M j j = M j := ha j hjlt.ne
    constructor
    · intro i hi
      show Function.update (mgsProj k M j) k _ i = M i
      rw [Function.update_noteq hi]
      exact ha i hi
    constructor
    · show M k - Function.update (mgsProj k M j) k _ k ∈ colSpan A k
      rw [Function.update_same, hBj]
      have h1 : M k - (mgsProj k M j k -
          dotp (M j) (mgsProj k M j k) • M j) =
          (M k - mgsProj k M j k) +
            dotp (M j) (mgsProj k M j k) • M j := by abel
      rw [h1]
      exact Submodule.add_mem _ hb
        (Submodule.smul_mem _ _
          (colSpan_mono A hjlt (inv.inSpan j hjlt)))
    · intro i hi
      show dotp (M i) (Function.update (mgsProj k M j) k _ k) = 0
      rw [Function.update_same, hBj, dotp_sub_right, dotp_smul_right]
      rcases Nat.lt_succ_iff_lt_or_eq.mp hi with hi' | rfl
      · rw [hc i hi', inv.ortho i j (hi'.trans hjlt) hjlt,
          if_neg hi'.ne, mul_zero, sub_zero]
      · rw [inv.ortho i i (by omega) (by omega), if_pos rfl, mul_one,
          sub_self]

/-- One modified Gram–Schmidt step preserves the invariant. -/
lemma mgsStep_inv {n : ℕ} {A : Cols n} {m : ℕ} (hA : IndepCols A m) :
    ∀ M k, k < m → StepInv A k M → StepInv A (k + 1) (mgsStep M k) := by
  intro M k hk inv
  obtain ⟨ha, hb, hc⟩ := mgsProj_spec inv k le_rfl
  have hupd : mgsStep M k =
      Function.update M k (normalizeVec (mgsProj k M k k)) := by
    unfold mgsStep
    funext i
    by_cases hik : i = k
    · subst hik; rw [Function.update_same, Function.update_same]
    · rw [Function.update_noteq hik, Function.update_noteq hik]
      exact ha i hik
  rw [hupd]
  exact inv.update_normalize hk hA hb fun i hi => hc i hi

/-! ### Structural facts: which columns a loop writes -/

lemma gsStep_apply_ne {n : ℕ} (M : Cols n) {k j : ℕ} (h : j ≠ k) :
    gsStep M k j = M j := by
  rw [gsStep_eq, Function.update_noteq h]

lemma mgsProj_apply_ne {n : ℕ} (M : Cols n) {k i : ℕ} (h : i ≠ k) :
    ∀ j, mgsProj k M j i = M i := by
  intro j
  induction j with
  | zero => rfl
  | succ j ih =>
    show Function.update (mgsProj k M j) k _ i = M i
    rw [Function.update_noteq h, ih]

lemma mgsStep_apply_ne {n : ℕ} (M : Cols n) {k j : ℕ} (h : j ≠ k) :
    mgsStep M k j = M j := by
  unfold mgsStep
  rw [Function.update_noteq h, mgsProj_apply_ne M h]

lemma forLoop_apply_lt {n : ℕ} {f : Cols n → ℕ → Cols n}
    (hf : ∀ M k j, j ≠ k → f M k j = M j) :
    ∀ t k (M : Cols n) j, j < k → forLoop f k t M j = M j := by
  intro t
  induction t with
  | zero => intro k M j _; rfl
  | succ t ih =>
    intro k M j hj
    show forLoop f (k + 1) t (f M k) j = M j
    rw [ih (k + 1) (f M k) j (by omega)]
    exact hf M k j (by omega)

/-! ### Skip-zero unfoldings and full-loop orthonormality -/

lemma gsStep_zero {n : ℕ} (A : Cols n) :
    gsStep A 0 = Function.update A 0 (normalizeVec (A 0)) := by
  rw [gsStep_eq]
  simp

lemma mgsStep_zero {n : ℕ} (A : Cols n) :
    mgsStep A 0 = Function.update A 0 (normalizeVec (A 0)) := by
  unfold mgsStep mgsProj
  rfl

lemma leftColsToSkipOk_zero {m : ℕ} (hm : 0 < m) : leftColsToSkipOk m 0 :=
  ⟨by exact_mod_cast hm, le_refl 0⟩

lemma GS_zero_eq {n m : ℕ} (A : Cols n) (hm : 0 < m) :
    GS_orthogonalisation m A 0 = some (forLoop gsStep 0 m A) := by
  obtain ⟨t, rfl⟩ : ∃ t, m = t + 1 := ⟨m - 1, by omega⟩
  rw [GS_orthogonalisation, if_pos (leftColsToSkipOk_zero hm)]
  show some (forLoop gsStep 1 (t + 1 - 1)
      (Function.update A 0 (normalizeVec (A 0)))) = _
  conv_rhs => rw [forLoop]
  rw [Nat.add_sub_cancel, gsStep_zero]

lemma MGS_zero_eq {n m : ℕ} (A : Cols n) (hm : 0 < m) :
    MGS_orthogonalisation m A 0 = some (forLoop mgsStep 0 m A) := by
  obtain ⟨t, rfl⟩ : ∃ t, m = t + 1 := ⟨m - 1, by omega⟩
  rw [MGS_orthogonalisation, if_pos (leftColsToSkipOk_zero hm)]
  show some (forLoop mgsStep 1 (t + 1 - 1)
      (Function.update A 0 (normalizeVec (A 0)))) = _
  conv_rhs => rw [forLoop]
  rw [Nat.add_sub_cancel, mgsStep_zero]

lemma gsLoop_stepInv {n m : ℕ} {A : Cols n} (hA : IndepCols A m) :
    StepInv A m (forLoop gsStep 0 m A) := by
  have h := forLoop_inv (gsStep_inv hA) m 0 A (by omega) (stepInv_start A)
  simpa using h

lemma mgsLoop_stepInv {n m : ℕ} {A : Cols n} (hA : IndepCols A m) :
    StepInv A m (forLoop mgsStep 0 m A) := by
  have h := forLoop_inv (mgsStep_inv hA) m 0 A (by omega) (stepInv_start A)
  simpa using h

/-- Claim C1: for a real matrix with linearly independent columns, both
`GS_orthogonalisation(A, 0)` and `MGS_orthogonalisation(A, 0)` succeed and
produce columns whose Gram matrix is the identity: distinct columns have
inner product `0` and every column has unit Euclidean norm. -/
theorem GS_MGS_skip_zero_orthonormal {n m : ℕ} (A : Cols n) (hm : 0 < m)
    (hli : LinearIndependent ℝ fun j : Fin m => A j) :
    ∃ B C : Cols n,
      GS_orthogonalisation m A 0 = some B ∧
      MGS_orthogonalisation m A 0 = some C ∧
      (∀ j k, j < m → k < m → dotp (B j) (B k) = if j = k then 1 else 0) ∧
      (∀ j k, j < m → k < m → dotp (C j) (C k) = if j = k then 1 else 0) := by
  have hA := IndepCols.of_linearIndependent hli
  exact ⟨_, _, GS_zero_eq A hm, MGS_zero_eq A hm,
    (gsLoop_stepInv hA).ortho, (mgsLoop_stepInv hA).ortho⟩

/-- Witness for `GS_MGS_skip_zero_orthonormal`: the 2 × 2 identity
matrix has linearly independent columns. -/
theorem GS_MGS_skip_zero_orthonormal_witness :
    ∃ B C : Cols 2,
      GS_orthogonalisation 2
        (fun j i => if (i : ℕ) = j then (1 : ℝ) else 0) 0 = some B ∧
      MGS_orthogonalisation 2
        (fun j i => if (i : ℕ) = j then (1 : ℝ) else 0) 0 = some C ∧
      (∀ j k, j < 2 → k < 2 → dotp (B j) (B k) = if j = k then 1 else 0) ∧
      (∀ j k, j < 2 → k < 2 → dotp (C j) (C k) = if j = k then 1 else 0) :=
  GS_MGS_skip_zero_orthonormal _ (by norm_num) (by
    rw [Fintype.linearIndependent_iff]
    intro g hg j
    have h0 : g 0 = 0 := by simpa [Fin.sum_univ_two] using congrFun hg 0
    have h1 : g 1 = 0 := by simpa [Fin.sum_univ_two] using congrFun hg 1
    fin_cases j
    · exact h0
    · exact h1)

/-! ### Gram–Schmidt fixes already-orthonormal matrices -/

lemma normalizeVec_of_unit {n : ℕ} {v : Vec n} (h : dotp v v = 1) :
    normalizeVec v = v := by
  rw [normalizeVec, if_pos (by rw [h]; norm_num), h, Real.sqrt_one,
    inv_one, one_smul]

lemma gsStep_of_ortho {n m : ℕ} {A : Cols n} (hA : OrthoCols A m) {k : ℕ}
    (hk : k < m) : gsStep A k = A := by
  rw [gsStep_eq]
  have hz : ∀ i ∈ Finset.range k, dotp (A i) (A k) • A i = 0 := by
    intro i hi
    have hik : i < k := Finset.mem_range.mp hi
    rw [hA i k (hik.trans hk) hk, if_neg hik.ne, zero_smul]
  rw [Finset.sum_eq_zero hz, sub_zero,
    normalizeVec_of_unit (by rw [hA k k hk hk, if_pos rfl]),
    Function.update_eq_self]

lemma forLoop_gsStep_of_ortho {n m : ℕ} {A : Cols n} (hA : OrthoCols A m) :
    ∀ t k, k + t ≤ m → forLoop gsStep k t A = A := by
  intro t
  induction t with
  | zero => intro k _; rfl
  | succ t ih =>
    intro k hk
    show forLoop gsStep (k + 1) t (gsStep A k) = A
    rw [gsStep_of_ortho hA (by omega : k < m)]
    exact ih (k + 1) (by omega)

lemma GS_of_ortho {n m : ℕ} {A : Cols n} (hA : OrthoCols A m) {L : ℤ}
    (hok : leftColsToSkipOk m L) : GS_orthogonalisation m A L = some A := by
  have hm : 0 < m := by
    rcases hok with ⟨h1, h2⟩; omega
  rw [GS_orthogonalisation, if_pos hok, treatFirstCol]
  by_cases hL : L.toNat = 0
  · rw [if_pos hL]
    have hu : normalizeVec (A 0) = A 0 :=
      normalizeVec_of_unit (by rw [hA 0 0 hm hm, if_pos rfl])
    show some (forLoop gsStep 1 (m - 1)
      (Function.update A 0 (normalizeVec (A 0)))) = some A
    rw [hu, Function.update_eq_self,
      forLoop_gsStep_of_ortho hA (m - 1) 1 (by omega)]
  · rw [if_neg hL]
    have htoNat : L.toNat ≤ m := by
      rcases hok with ⟨h1, h2⟩; omega
    show some (forLoop gsStep L.toNat (m - L.toNat) A) = some A
    rw [forLoop_gsStep_of_ortho hA (m - L.toNat) L.toNat (by omega)]

/-- Claim C8: `twice_is_enough_orthogonalisation` applied to a matrix whose
`m` columns are already mutually orthonormal, with any valid skip count,
returns the matrix unchanged: each classical Gram–Schmidt sweep subtracts
zero projections and renormalizes unit columns. -/
theorem twice_is_enough_on_orthonormal {n m : ℕ} (A : Cols n) (L : ℤ)
    (hA : OrthoCols A m) (h0 : 0 ≤ L) (h1 : L < (m : ℤ)) :
    twice_is_enough_orthogonalisation m A L = some A := by
  have hok : leftColsToSkipOk m L := ⟨h1, h0⟩
  rw [twice_is_enough_orthogonalisation, GS_of_ortho hA hok,
    Option.some_bind, GS_of_ortho hA hok]

/-- Witness for `twice_is_enough_on_orthonormal`: the 2 × 2 identity
matrix is orthonormal; with skip count 1 it passes through unchanged. -/
theorem twice_is_enough_on_orthonormal_witness :
    twice_is_enough_orthogonalisation 2
      (fun j (i : Fin 2) => if (i : ℕ) = j then (1 : ℝ) else 0) 1 =
      some (fun j (i : Fin 2) => if (i : ℕ) = j then (1 : ℝ) else 0) :=
  twice_is_enough_on_orthonormal _ 1
    (by
      intro j k hj hk
      interval_cases j <;> interval_cases k <;>
        simp [dotp, Fin.sum_univ_two])
    (by norm_num) (by norm_num)

/-- Claim C7: `partial_orthogonalisation(A, 0)` is a deliberate no-op on a
matrix with at least one column: it returns immediately, leaving the whole
matrix unchanged. -/
theorem partial_skip_zero_noop {n m : ℕ} (A : Cols n) (hm : 0 < m) :
    partial_orthogonalisation m A 0 = some A := by
  rw [partial_orthogonalisation, if_pos (leftColsToSkipOk_zero hm), if_pos rfl]

/-- Witness for `partial_skip_zero_noop` on a concrete 1 × 1 matrix. -/
theorem partial_skip_zero_noop_witness :
    partial_orthogonalisation 1 (fun _ (_ : Fin 1) => (3 : ℝ)) 0 =
      some (fun _ (_ : Fin 1) => (3 : ℝ)) :=
  partial_skip_zero_noop _ (by norm_num)

/-! ### Positive skip counts: unfoldings and the untouched prefix -/

lemma GS_skip_pos_eq {n m : ℕ} (A : Cols n) {L : ℤ} (h1 : 1 ≤ L)
    (h2 : L < (m : ℤ)) :
    GS_orthogonalisation m A L =
      some (forLoop gsStep L.toNat (m - L.toNat) A) := by
  rw [GS_orthogonalisation, if_pos ⟨h2, by omega⟩, treatFirstCol,
    if_neg (by omega : L.toNat ≠ 0)]

lemma MGS_skip_pos_eq {n m : ℕ} (A : Cols n) {L : ℤ} (h1 : 1 ≤ L)
    (h2 : L < (m : ℤ)) :
    MGS_orthogonalisation m A L =
      some (forLoop mgsStep L.toNat (m - L.toNat) A) := by
  rw [MGS_orthogonalisation, if_pos ⟨h2, by omega⟩, treatFirstCol,
    if_neg (by omega : L.toNat ≠ 0)]

lemma partial_skip_pos_eq {n m : ℕ} (A : Cols n) {L : ℤ} (h1 : 1 ≤ L)
    (h2 : L < (m : ℤ)) :
    partial_orthogonalisation m A L = some (partialCore m L.toNat A) := by
  rw [partial_orthogonalisation, if_pos ⟨h2, by omega⟩,
    if_neg (by omega : ¬ L = 0)]

lemma partialCore_left {n m L : ℕ} (A : Cols n) {j : ℕ} (hj : j < L) :
    partialCore m L A j = A j := by
  rw [partialCore, if_pos (Or.inl hj)]

/-- Claim C4: with a positive valid skip count `1 ≤ L < m`, each of the
five skip-accepting routines succeeds and leaves every column with index
below `L` exactly equal to its input value. -/
theorem skip_prefix_untouched {n m : ℕ} (A : Cols n) (L : ℤ)
    (h1 : 1 ≤ L) (h2 : L < (m : ℤ)) :
    (∃ B, GS_orthogonalisation m A L = some B ∧
      ∀ j, j < L.toNat → B j = A j) ∧
    (∃ B, MGS_orthogonalisation m A L = some B ∧
      ∀ j, j < L.toNat → B j = A j) ∧
    (∃ B, twice_is_enough_orthogonalisation m A L = some B ∧
      ∀ j, j < L.toNat → B j = A j) ∧
    (∃ B, partial_orthogonalisation m A L = some B ∧
      ∀ j, j < L.toNat → B j = A j) ∧
    (∃ B, JensWehner_orthogonalisation m A L = some B ∧
      ∀ j, j < L.toNat → B j = A j) := by
  have hgs : ∀ M : Cols n, ∀ j, j < L.toNat →
      forLoop gsStep L.toNat (m - L.toNat) M j = M j := fun M j hj =>
    forLoop_apply_lt (fun M k j hjk => gsStep_apply_ne M hjk) _ _ M j hj
  refine ⟨⟨_, GS_skip_pos_eq A h1 h2, fun j hj => hgs A j hj⟩, ?_, ?_, ?_, ?_⟩
  · exact ⟨_, MGS_skip_pos_eq A h1 h2, fun j hj =>
      forLoop_apply_lt (fun M k j hjk => mgsStep_apply_ne M hjk) _ _ A j hj⟩
  · refine ⟨forLoop gsStep L.toNat (m - L.toNat)
        (forLoop gsStep L.toNat (m - L.toNat) A), ?_, ?_⟩
    · rw [twice_is_enough_orthogonalisation, GS_skip_pos_eq A h1 h2,
        Option.some_bind,
        GS_skip_pos_eq (forLoop gsStep L.toNat (m - L.toNat) A) h1 h2]
    · intro j hj
      rw [hgs _ j hj, hgs A j hj]
  · exact ⟨_, partial_skip_pos_eq A h1 h2, fun j hj =>
      partialCore_left A hj⟩
  · rw [JensWehner_orthogonalisation, if_pos ⟨h2, by omega⟩,
      partial_skip_pos_eq A h1 h2, Option.map_some']
    refine ⟨_, rfl, fun j hj => ?_⟩
    show (if j < L.toNat ∨ m ≤ j then _ else _) = A j
    rw [if_pos (Or.inl hj)]
    exact partialCore_left A hj

/-- Witness for `skip_prefix_untouched` at a concrete 2 × 2 matrix with
skip count 1. -/
theorem skip_prefix_untouched_witness :
    (∃ B, GS_orthogonalisation 2 (fun j (i : Fin 2) => (j : ℝ) + 2 * i) 1 =
      some B ∧ ∀ j, j < (1 : ℤ).toNat →
        B j = (fun j (i : Fin 2) => (j : ℝ) + 2 * i) j) ∧
    (∃ B, MGS_orthogonalisation 2 (fun j (i : Fin 2) => (j : ℝ) + 2 * i) 1 =
      some B ∧ ∀ j, j < (1 : ℤ).toNat →
        B j = (fun j (i : Fin 2) => (j : ℝ) + 2 * i) j) ∧
    (∃ B, twice_is_enough_orthogonalisation 2
        (fun j (i : Fin 2) => (j : ℝ) + 2 * i) 1 =
      some B ∧ ∀ j, j < (1 : ℤ).toNat →
        B j = (fun j (i : Fin 2) => (j : ℝ) + 2 * i) j) ∧
    (∃ B, partial_orthogonalisation 2
        (fun j (i : Fin 2) => (j : ℝ) + 2 * i) 1 =
      some B ∧ ∀ j, j < (1 : ℤ).toNat →
        B j = (fun j (i : Fin 2) => (j : ℝ) + 2 * i) j) ∧
    (∃ B, JensWehner_orthogonalisation 2
        (fun j (i : Fin 2) => (j : ℝ) + 2 * i) 1 =
      some B ∧ ∀ j, j < (1 : ℤ).toNat →
        B j = (fun j (i : Fin 2) => (j : ℝ) + 2 * i) j) :=
  skip_prefix_untouched _ 1 (by norm_num) (by norm_num)

/-! ### The precondition guard -/

lemma not_leftColsToSkipOk_cols (m : ℕ) : ¬ leftColsToSkipOk m (m : ℤ) := by
  unfold leftColsToSkipOk; omega

lemma not_leftColsToSkipOk_neg_one (m : ℕ) :
    ¬ leftColsToSkipOk m (-1 : ℤ) := by
  unfold leftColsToSkipOk; omega

/-- Claim C6: each of the five skip-accepting routines fails its
precondition check (modeled as a `none` result) at `leftColsToSkip = m`
and at `leftColsToSkip = −1`, and succeeds whenever `0 ≤ leftColsToSkip
< m`.  (`QR_orthogonalisation` takes no skip argument and is total by
construction.) -/
theorem precondition_guard {n m : ℕ} (A : Cols n) :
    (GS_orthogonalisation m A (m : ℤ) = none ∧
      MGS_orthogonalisation m A (m : ℤ) = none ∧
      twice_is_enough_orthogonalisation m A (m : ℤ) = none ∧
      partial_orthogonalisation m A (m : ℤ) = none ∧
      JensWehner_orthogonalisation m A (m : ℤ) = none) ∧
    (GS_orthogonalisation m A (-1) = none ∧
      MGS_orthogonalisation m A (-1) = none ∧
      twice_is_enough_orthogonalisation m A (-1) = none ∧
      partial_orthogonalisation m A (-1) = none ∧
      JensWehner_orthogonalisation m A (-1) = none) ∧
    (∀ L : ℤ, 0 ≤ L → L < (m : ℤ) →
      (GS_orthogonalisation m A L).isSome = true ∧
      (MGS_orthogonalisation m A L).isSome = true ∧
      (twice_is_enough_orthogonalisation m A L).isSome = true ∧
      (partial_orthogonalisation m A L).isSome = true ∧
      (JensWehner_orthogonalisation m A L).isSome = true) := by
  have hGSnone : ∀ (B : Cols n) (L : ℤ), ¬ leftColsToSkipOk m L →
      GS_orthogonalisation m B L = none := fun B L h => by
    rw [GS_orthogonalisation, if_neg h]
  refine ⟨⟨?_, ?_, ?_, ?_, ?_⟩, ⟨?_, ?_, ?_, ?_, ?_⟩, ?_⟩
  · exact hGSnone A _ (not_leftColsToSkipOk_cols m)
  · rw [MGS_orthogonalisation, if_neg (not_leftColsToSkipOk_cols m)]
  · rw [twice_is_enough_orthogonalisation,
      hGSnone A _ (not_leftColsToSkipOk_cols m), Option.none_bind]
  · rw [partial_orthogonalisation, if_neg (not_leftColsToSkipOk_cols m)]
  · rw [JensWehner_orthogonalisation, if_neg (not_leftColsToSkipOk_cols m)]
  · exact hGSnone A _ (not_leftColsToSkipOk_neg_one m)
  · rw [MGS_orthogonalisation, if_neg (not_leftColsToSkipOk_neg_one m)]
  · rw [twice_is_enough_orthogonalisation,
      hGSnone A _ (not_leftColsToSkipOk_neg_one m), Option.none_bind]
  · rw [partial_orthogonalisation, if_neg (not_leftColsToSkipOk_neg_one m)]
  · rw [JensWehner_orthogonalisation,
      if_neg (not_leftColsToSkipOk_neg_one m)]
  · intro L h0 h1
    have hok : leftColsToSkipOk m L := ⟨h1, h0⟩
    have hpartial : (partial_orthogonalisation m A L).isSome = true := by
      rw [partial_orthogonalisation, if_pos hok]
      by_cases hL : L = 0 <;> simp [hL]
    refine ⟨?_, ?_, ?_, hpartial, ?_⟩
    · rw [GS_orthogonalisation, if_pos hok]; rfl
    · rw [MGS_orthogonalisation, if_pos hok]; rfl
    · rw [twice_is_enough_orthogonalisation, GS_orthogonalisation,
        if_pos hok, Option.some_bind, GS_orthogonalisation, if_pos hok]
      rfl
    · rw [JensWehner_orthogonalisation, if_pos hok]
      rw [Option.isSome_map']
      exact hpartial

/-- Witness for `precondition_guard` at a concrete 2 × 2 matrix and
skip count 1. -/
theorem precondition_guard_witness :
    GS_orthogonalisation 2 (fun _ (_ : Fin 2) => (1 : ℝ)) ((2 : ℕ) : ℤ) =
      none ∧
    GS_orthogonalisation 2 (fun _ (_ : Fin 2) => (1 : ℝ)) (-1) = none ∧
    (GS_orthogonalisation 2 (fun _ (_ : Fin 2) => (1 : ℝ)) 1).isSome =
      true :=
  ⟨(precondition_guard _).1.1, (precondition_guard _).2.1.1,
    ((precondition_guard _).2.2 1 (by norm_num) (by norm_num)).1⟩

/-! ### The partial orthogonalizer's right block -/

lemma partialCore_right {n m L : ℕ} (A : Cols n) {k : ℕ} (hLk : L ≤ k)
    (hkm : k < m) :
    partialCore m L A k = colwiseNormalizeVec
      (A k - ∑ j ∈ Finset.range L, dotp (A j) (A k) • A j) := by
  rw [partialCore, if_neg (by omega : ¬ (k < L ∨ m ≤ k))]

lemma partialCore_residual_ne_zero {n L : ℕ} {A : Cols n} {k : ℕ}
    (hns : A k ∉ colSpan A L) :
    A k - ∑ j ∈ Finset.range L, dotp (A j) (A k) • A j ≠ 0 := by
  intro h
  apply hns
  rw [sub_eq_zero.mp h]
  exact projection_mem_colSpan A L (A k)

lemma colwiseNormalizeVec_dot_self {n : ℕ} {v : Vec n} (h : v ≠ 0) :
    dotp (colwiseNormalizeVec v) (colwiseNormalizeVec v) = 1 := by
  rw [colwiseNormalizeVec]
  exact dotp_smul_smul_self h

/-- Claim C3: with `1 ≤ L < m`, mutually orthonormal left columns and no
right column inside the left span, `partial_orthogonalisation` gives every
right column unit norm and zero inner product with every left column; and
each output right column is a function of the input left block and that
single input column alone (the routine never relates two right columns,
so their mutual inner products are unconstrained). -/
theorem partial_right_block_properties {n m : ℕ} (A : Cols n) (L : ℤ)
    (h1 : 1 ≤ L) (h2 : L < (m : ℤ)) (hortho : OrthoCols A L.toNat)
    (hns : ∀ k, L.toNat ≤ k → k < m → A k ∉ colSpan A L.toNat) :
    ∃ B, partial_orthogonalisation m A L = some B ∧
      (∀ k, L.toNat ≤ k → k < m → dotp (B k) (B k) = 1) ∧
      (∀ j k, j < L.toNat → L.toNat ≤ k → k < m → dotp (B j) (B k) = 0) ∧
      (∀ A' : Cols n, (∀ j, j < L.toNat → A' j = A j) →
        ∀ k, L.toNat ≤ k → k < m → A' k = A k →
          partialCore m L.toNat A' k = B k) := by
  refine ⟨partialCore m L.toNat A, partial_skip_pos_eq A h1 h2, ?_, ?_, ?_⟩
  · intro k hLk hkm
    rw [partialCore_right A hLk hkm]
    exact colwiseNormalizeVec_dot_self
      (partialCore_residual_ne_zero (hns k hLk hkm))
  · intro j k hj hLk hkm
    rw [partialCore_left A hj, partialCore_right A hLk hkm,
      colwiseNormalizeVec, dotp_smul_right,
      dotp_residual_zero hortho (A k) hj, mul_zero]
  · intro A' hl k hLk hkm hk
    rw [partialCore_right A' hLk hkm, partialCore_right A hLk hkm, hk]
    have hsum : ∀ j ∈ Finset.range L.toNat,
        dotp (A' j) (A k) • A' j = dotp (A j) (A k) • A j := fun j hj => by
      rw [hl j (Finset.mem_range.mp hj)]
    rw [Finset.sum_congr rfl hsum]

/-- Witness for `partial_right_block_properties` at the 2 × 2 identity
matrix with skip count 1. -/
theorem partial_right_block_properties_witness :
    ∃ B, partial_orthogonalisation 2
        (fun j (i : Fin 2) => if (i : ℕ) = j then (1 : ℝ) else 0) 1 =
        some B ∧
      (∀ k, (1 : ℤ).toNat ≤ k → k < 2 → dotp (B k) (B k) = 1) ∧
      (∀ j k, j < (1 : ℤ).toNat → (1 : ℤ).toNat ≤ k → k < 2 →
        dotp (B j) (B k) = 0) ∧
      (∀ A' : Cols 2, (∀ j, j < (1 : ℤ).toNat →
          A' j = (fun j (i : Fin 2) => if (i : ℕ) = j then (1 : ℝ) else 0) j) →
        ∀ k, (1 : ℤ).toNat ≤ k → k < 2 →
          A' k = (fun j (i : Fin 2) => if (i : ℕ) = j then (1 : ℝ) else 0) k →
            partialCore 2 (1 : ℤ).toNat A' k = B k) :=
  partial_right_block_properties _ 1 (by norm_num) (by norm_num)
    (by
      intro j k hj hk
      obtain rfl : j = 0 := by omega
      obtain rfl : k = 0 := by omega
      simp [dotp, Fin.sum_univ_two])
    (by
      intro k hk hkm
      obtain rfl : k = 1 := by omega
      intro hmem
      have himg : (fun j (i : Fin 2) =>
          if (i : ℕ) = j then (1 : ℝ) else 0) '' Set.Iio (1 : ℤ).toNat =
          {fun i : Fin 2 => if (i : ℕ) = 0 then (1 : ℝ) else 0} := by
        ext x
        simp [Nat.lt_one_iff, eq_comm]
      rw [colSpan, himg, Submodule.mem_span_singleton] at hmem
      obtain ⟨a, ha⟩ := hmem
      have h1 := congrFun ha ⟨1, by norm_num⟩
      simp at h1)

/-! ### The JensWehner composite -/

lemma JW_eq_of_ok {n m : ℕ} (A : Cols n) {L : ℤ}
    (hok : leftColsToSkipOk m L) (P : Cols n)
    (hpart : partial_orthogonalisation m A L = some P) :
    JensWehner_orthogonalisation m A L =
      some fun k =>
        if k < L.toNat ∨ m ≤ k then P k
        else QR_orthogonalisation (m - L.toNat)
          (fun j => P (L.toNat + j)) (k - L.toNat) := by
  rw [JensWehner_orthogonalisation, if_pos hok, hpart, Option.map_some']

/-- If the right block (shifted to start at index 0) has independent
columns and is orthogonal to the `Lt` left columns of `A`, then writing
the QR-orthogonalized right block back yields: left columns preserved,
right columns mutually orthonormal, and right columns orthogonal to the
left ones. -/
lemma QR_orthogonalisation_eq_forLoop {n : ℕ} (p : ℕ) (A : Cols n) :
    QR_orthogonalisation p A = forLoop gsStep 0 p A := rfl

lemma qr_extend {n m Lt : ℕ} {A P B : Cols n} (hLm : Lt < m)
    (hB : ∀ k, B k = if k < Lt ∨ m ≤ k then P k
      else QR_orthogonalisation (m - Lt) (fun j => P (Lt + j)) (k - Lt))
    (hP : ∀ j, j < Lt → P j = A j)
    (hPind : IndepCols (fun j => P (Lt + j)) (m - Lt))
    (hPorth : ∀ j i, j < Lt → i < m - Lt → dotp (A j) (P (Lt + i)) = 0) :
    (∀ j, j < Lt → B j = A j) ∧
    (∀ j k, Lt ≤ j → j < m → Lt ≤ k → k < m →
      dotp (B j) (B k) = if j = k then 1 else 0) ∧
    (∀ j k, j < Lt → Lt ≤ k → k < m → dotp (B j) (B k) = 0) := by
  have hQ := gsLoop_stepInv hPind
  refine ⟨?_, ?_, ?_⟩
  · intro j hj
    rw [hB j, if_pos (Or.inl hj)]
    exact hP j hj
  · intro j k hLj hjm hLk hkm
    rw [hB j, hB k, if_neg (by omega : ¬ (j < Lt ∨ m ≤ j)),
      if_neg (by omega : ¬ (k < Lt ∨ m ≤ k)),
      QR_orthogonalisation_eq_forLoop]
    rw [hQ.ortho (j - Lt) (k - Lt) (by omega) (by omega)]
    by_cases hjk : j = k
    · rw [if_pos (by omega), if_pos hjk]
    · rw [if_neg (by omega : ¬ j - Lt = k - Lt), if_neg hjk]
  · intro j k hj hLk hkm
    rw [hB j, if_pos (Or.inl hj), hP j hj, hB k,
      if_neg (by omega : ¬ (k < Lt ∨ m ≤ k))]
    have hmem := hQ.inSpan (k - Lt) (by omega)
    exact dotp_eq_zero_of_mem_colSpan
      (fun r hr => hPorth j r hj (by omega)) hmem

/-- Claim C2: for a matrix with linearly independent columns whose first
`L` columns are already mutually orthonormal (`0 ≤ L < m`),
`JensWehner_orthogonalisation(A, L)` leaves columns `[0, L)` unchanged,
makes columns `[L, m)` mutually orthonormal, and makes every column of
`[L, m)` orthogonal to every column of `[0, L)`. -/
theorem JensWehner_extends_basis {n m : ℕ} (A : Cols n) (L : ℤ)
    (h0 : 0 ≤ L) (h2 : L < (m : ℤ))
    (hli : LinearIndependent ℝ fun j : Fin m => A j)
    (hortho : OrthoCols A L.toNat) :
    ∃ B, JensWehner_orthogonalisation m A L = some B ∧
      (∀ j, j < L.toNat → B j = A j) ∧
      (∀ j k, L.toNat ≤ j → j < m → L.toNat ≤ k → k < m →
        dotp (B j) (B k) = if j = k then 1 else 0) ∧
      (∀ j k, j < L.toNat → L.toNat ≤ k → k < m →
        dotp (B j) (B k) = 0) := by
  have hA := IndepCols.of_linearIndependent hli
  have hm : 0 < m := by omega
  have hLm : L.toNat < m := by omega
  by_cases hL0 : L = 0
  · subst hL0
    rw [JW_eq_of_ok A ⟨h2, h0⟩ A (partial_skip_zero_noop A hm)]
    refine ⟨_, rfl, ?_⟩
    refine qr_extend hLm (fun k => rfl) (fun j hj => by omega) ?_
      (fun j i hj hi => by omega)
    simpa using hA
  · have h1 : 1 ≤ L := by omega
    rw [JW_eq_of_ok A ⟨h2, h0⟩ (partialCore m L.toNat A)
      (partial_skip_pos_eq A h1 h2)]
    refine ⟨_, rfl, ?_⟩
    have hnsk : ∀ k', L.toNat ≤ k' → k' < m →
        A k' ∉ colSpan A L.toNat := fun k' ha hb hmem =>
      hA k' hb (colSpan_mono A ha hmem)
    refine qr_extend hLm (fun k => rfl)
      (fun j hj => partialCore_left A hj) ?_ ?_
    · intro i hi hmem
      have hki : L.toNat + i < m := by omega
      have hRle : colSpan (fun j => partialCore m L.toNat A (L.toNat + j)) i
          ≤ colSpan A (L.toNat + i) := by
        apply Submodule.span_le.mpr
        rintro x ⟨r, hr, rfl⟩
        have hr' : r < i := hr
        show partialCore m L.toNat A (L.toNat + r) ∈ colSpan A (L.toNat + i)
        rw [partialCore_right A (by omega) (by omega), colwiseNormalizeVec]
        refine Submodule.smul_mem _ _ (Submodule.sub_mem _ ?_ ?_)
        · exact col_mem_colSpan A (by omega)
        · exact colSpan_mono A (by omega)
            (projection_mem_colSpan A L.toNat _)
      have hRi : partialCore m L.toNat A (L.toNat + i) ∈
          colSpan A (L.toNat + i) := hRle hmem
      have hr0 : A (L.toNat + i) - ∑ j ∈ Finset.range L.toNat,
          dotp (A j) (A (L.toNat + i)) • A j ≠ 0 :=
        partialCore_residual_ne_zero (hnsk (L.toNat + i) (by omega) hki)
      rw [partialCore_right A (by omega : L.toNat ≤ L.toNat + i) hki,
        colwiseNormalizeVec,
        Submodule.smul_mem_iff _ (ne_of_gt (sqrt_dotp_inv_pos hr0))]
        at hRi
      apply hA (L.toNat + i) hki
      have hu := colSpan_mono A (by omega : L.toNat ≤ L.toNat + i)
        (projection_mem_colSpan A L.toNat (A (L.toNat + i)))
      have hsum := Submodule.add_mem _ hRi hu
      simpa using hsum
    · intro j i hj hi
      rw [partialCore_right A (by omega) (by omega), colwiseNormalizeVec,
        dotp_smul_right, dotp_residual_zero hortho _ hj, mul_zero]

/-- Witness for `JensWehner_extends_basis` at the 2 × 2 identity matrix
with skip count 1. -/
theorem JensWehner_extends_basis_witness :
    ∃ B, JensWehner_orthogonalisation 2
        (fun j (i : Fin 2) => if (i : ℕ) = j then (1 : ℝ) else 0) 1 =
        some B ∧
      (∀ j, j < (1 : ℤ).toNat →
        B j = (fun j (i : Fin 2) => if (i : ℕ) = j then (1 : ℝ) else 0) j) ∧
      (∀ j k, (1 : ℤ).toNat ≤ j → j < 2 → (1 : ℤ).toNat ≤ k → k < 2 →
        dotp (B j) (B k) = if j = k then 1 else 0) ∧
      (∀ j k, j < (1 : ℤ).toNat → (1 : ℤ).toNat ≤ k → k < 2 →
        dotp (B j) (B k) = 0) :=
  JensWehner_extends_basis _ 1 (by norm_num) (by norm_num)
    (by
      rw [Fintype.linearIndependent_iff]
      intro g hg j
      have h0 : g 0 = 0 := by simpa [Fin.sum_univ_two] using congrFun hg 0
      have h1 : g 1 = 0 := by simpa [Fin.sum_univ_two] using congrFun hg 1
      fin_cases j
      · exact h0
      · exact h1)
    (by
      intro j k hj hk
      obtain rfl : j = 0 := by omega
      obtain rfl : k = 0 := by omega
      simp [dotp, Fin.sum_univ_two])

/-! ### Scalar numeric traits (`include/Spectra/Util/TypeTraits.h`) -/

/-- Machine-precision constants of a scalar type, as exact rationals:
its machine epsilon and its smallest positive normalized value. -/
structure NumericLimits where
  epsilon : ℚ
  min : ℚ

/-- Modelled from the spec: `std::numeric_limits<float>` is IEEE-754
binary32, with machine epsilon `2^-23` and smallest positive normalized
value `2^-126` (the standard library is external to this repository). -/
def floatLimits : NumericLimits :=
  { epsilon := 1 / 2 ^ 23, min := 1 / 2 ^ 126 }

/-- Modelled from the spec: `std::numeric_limits<double>` is IEEE-754
binary64, with machine epsilon `2^-52` and smallest positive normalized
value `2^-1022`. -/
def doubleLimits : NumericLimits :=
  { epsilon := 1 / 2 ^ 52, min := 1 / 2 ^ 1022 }

/-- Modelled from the spec: `std::numeric_limits<long double>` is the x87
80-bit extended format, with machine epsilon `2^-63` and smallest positive
normalized value `2^-16382`. -/
def longDoubleLimits : NumericLimits :=
  { epsilon := 1 / 2 ^ 63, min := 1 / 2 ^ 16382 }

/-- The scalar types `TypeTraits` distinguishes: the three built-in
floating types with full specializations (TypeTraits.h lines 50–87) and
every other scalar type, carrying the `Eigen::numext::numeric_limits`
constants the generic template consults. -/
inductive CppScalar where
  | float
  | double
  | longDouble
  | generic (limits : NumericLimits)

/-- The `numeric_limits` constants per scalar type. -/
def numericLimitsOf : CppScalar → NumericLimits
  | .float => floatLimits
  | .double => doubleLimits
  | .longDouble => longDoubleLimits
  | .generic l => l

/-- `TypeTraits` (TypeTraits.h lines 36–87): the generic template takes
`epsilon()` from `numeric_limits` and defines `min()` as
`epsilon() * epsilon() * epsilon()`; the three full specializations
return both values directly from `std::numeric_limits`. -/
def TypeTraits : CppScalar → NumericLimits
  | .float => { epsilon := floatLimits.epsilon, min := floatLimits.min }
  | .double => { epsilon := doubleLimits.epsilon, min := doubleLimits.min }
  | .longDouble =>
    { epsilon := longDoubleLimits.epsilon, min := longDoubleLimits.min }
  | .generic l =>
    { epsilon := l.epsilon, min := l.epsilon * l.epsilon * l.epsilon }

/-- Claim C9: `TypeTraits<Scalar>::min()` is the exact IEEE smallest
positive normalized value for the three built-in floating types, and
`epsilon()` cubed for every other scalar type; `epsilon()` is the machine
epsilon of the scalar type in every case. -/
theorem typeTraits_min_epsilon :
    (TypeTraits .float).min = 1 / 2 ^ 126 ∧
    (TypeTraits .double).min = 1 / 2 ^ 1022 ∧
    (TypeTraits .longDouble).min = 1 / 2 ^ 16382 ∧
    (TypeTraits .float).min = floatLimits.min ∧
    (TypeTraits .double).min = doubleLimits.min ∧
    (TypeTraits .longDouble).min = longDoubleLimits.min ∧
    (∀ l : NumericLimits, (TypeTraits (.generic l)).min =
      l.epsilon * l.epsilon * l.epsilon) ∧
    (∀ s : CppScalar, (TypeTraits s).epsilon = (numericLimitsOf s).epsilon) := by
  refine ⟨rfl, rfl, rfl, rfl, rfl, rfl, fun l => rfl, fun s => ?_⟩
  cases s <;> rfl

/-! ### Zero-norm normalization is reachable (rank-deficient inputs) -/

/-- A 1 × 1 matrix whose only column is the zero vector. -/
def zeroCol : Cols 1 := fun _ _ => 0

/-- A 1 × 2 matrix whose second column is twice its first. -/
def depCols : Cols 1 := fun j _ => if j = 0 then 1 else 2

/-- A 1 × 2 matrix with two identical unit columns. -/
def dupCols : Cols 1 := fun _ _ => 1

/-- Claim C10: no routine guards normalization against an exactly zero
norm.  Concretely: (i) on a zero first column with skip 0,
`treatFirstCol` hands `normalize()` a vector of exactly zero squared norm
(the guarded-division branch is taken, the column stays zero) and
`GS_orthogonalisation` returns the unchanged matrix without any error;
(ii) in `MGS_orthogonalisation` on a matrix whose second column depends
linearly on the first, the residual handed to `normalize()` is exactly
the zero vector, and the routine returns it as column 1; (iii) in
`partial_orthogonalisation` on a right column lying exactly in the span
of the left block, the residual normalized columnwise is exactly zero
and the returned column 1 is zero.  No rank-deficiency error is ever
signalled. -/
theorem rank_deficient_zero_norm_reachable :
    (dotp (zeroCol 0) (zeroCol 0) = 0 ∧
      treatFirstCol zeroCol 0 = (zeroCol, 1) ∧
      GS_orthogonalisation 1 zeroCol 0 = some zeroCol) ∧
    (∃ B, MGS_orthogonalisation 2 depCols 0 = some B ∧
      dotp (mgsProj 1 depCols 1 1) (mgsProj 1 depCols 1 1) = 0 ∧
      B 1 = 0) ∧
    (∃ B, partial_orthogonalisation 2 dupCols 1 = some B ∧
      (dupCols 1 - ∑ j ∈ Finset.range 1,
        dotp (dupCols j) (dupCols 1) • dupCols j) = 0 ∧
      B 1 = 0) := by
  have hz : zeroCol 0 = 0 := rfl
  have hnz : normalizeVec (zeroCol 0) = zeroCol 0 := by
    rw [hz, normalizeVec_zero]
  refine ⟨⟨by rw [hz, dotp_zero_left], ?_, ?_⟩, ?_, ?_⟩
  · rw [treatFirstCol, if_pos rfl, hnz, Function.update_eq_self]
  · rw [GS_zero_eq zeroCol (by norm_num)]
    show some (forLoop gsStep 1 0 (gsStep zeroCol 0)) = some zeroCol
    rw [forLoop, gsStep_zero, hnz, Function.update_eq_self]
  · have hunit : dotp (depCols 0) (depCols 0) = 1 := by
      simp [depCols, dotp]
    have hstep0 : mgsStep depCols 0 = depCols := by
      rw [mgsStep_zero, normalizeVec_of_unit hunit, Function.update_eq_self]
    have hv : mgsProj 1 depCols 1 1 = 0 := by
      show Function.update (mgsProj 1 depCols 0) 1
        (mgsProj 1 depCols 0 1 -
          dotp (mgsProj 1 depCols 0 0) (mgsProj 1 depCols 0 1) •
            mgsProj 1 depCols 0 0) 1 = 0
      rw [Function.update_same]
      show depCols 1 - dotp (depCols 0) (depCols 1) • depCols 0 = 0
      funext i
      simp [depCols, dotp]
    refine ⟨forLoop mgsStep 0 2 depCols, MGS_zero_eq depCols (by norm_num),
      by rw [hv, dotp_zero_left], ?_⟩
    have hloop : forLoop mgsStep 0 2 depCols = mgsStep depCols 1 := by
      show forLoop mgsStep 1 1 (mgsStep depCols 0) = mgsStep depCols 1
      rw [hstep0]
      rfl
    rw [hloop]
    show Function.update (mgsProj 1 depCols 1) 1
      (normalizeVec (mgsProj 1 depCols 1 1)) 1 = 0
    rw [Function.update_same, hv, normalizeVec_zero]
  · have hr : dupCols 1 - ∑ j ∈ Finset.range 1,
        dotp (dupCols j) (dupCols 1) • dupCols j = 0 := by
      funext i
      simp [dupCols, dotp]
    refine ⟨partialCore 2 (1 : ℤ).toNat dupCols,
      partial_skip_pos_eq dupCols (by norm_num) (by norm_num), hr, ?_⟩
    have h2 : partialCore 2 1 dupCols 1 = 0 := by
      rw [partialCore_right dupCols (by norm_num) (by norm_num), hr,
        colwiseNormalizeVec]
      simp
    exact h2

/-! ### Complex scalars

The routines are templates over the scalar type; this is their
instantiation at `Scalar = std::complex<double>`.  Note that line 89 of
the source computes the projection coefficients with `.transpose()`
(which does not conjugate), while norms (`normalize()`) use the Hermitian
squared norm. -/

/-- A complex column vector of height `n`. -/
abbrev VecC (n : ℕ) := Fin n → ℂ

/-- A complex matrix given by its columns. -/
abbrev ColsC (n : ℕ) := ℕ → VecC n

/-- `u.transpose() * v` over complex scalars: the bilinear (non-conjugated)
pairing used by `GS_orthogonalisation`'s projection coefficients. -/
noncomputable def dotc {n : ℕ} (u v : VecC n) : ℂ := ∑ i, u i * v i

/-- The Hermitian inner product `u.adjoint() * v` (Eigen's `u.dot(v)`);
its diagonal is Eigen's `squaredNorm()`. -/
noncomputable def hdot {n : ℕ} (u v : VecC n) : ℂ := ∑ i, star (u i) * v i

/-- `MatrixBase::normalize()` over complex scalars: divide by the
(real) Euclidean norm when the Hermitian squared norm is positive. -/
noncomputable def normalizeVecC {n : ℕ} (v : VecC n) : VecC n :=
  if 0 < (hdot v v).re
  then (((Real.sqrt (hdot v v).re : ℝ) : ℂ))⁻¹ • v else v

/-- `treatFirstCol` at complex scalars. -/
noncomputable def treatFirstColC {n : ℕ} (A : ColsC n)
    (leftColsToSkip : ℕ) : ColsC n × ℕ :=
  if leftColsToSkip = 0 then (Function.update A 0 (normalizeVecC (A 0)), 1)
  else (A, leftColsToSkip)

/-- One classical Gram–Schmidt iteration at complex scalars: the
projection coefficients come from the plain transpose (line 89). -/
noncomputable def gsStepC {n : ℕ} (M : ColsC n) (j : ℕ) : ColsC n :=
  let B := Function.update M j
    (M j - ∑ i ∈ Finset.range j, dotc (M i) (M j) • M i)
  Function.update B j (normalizeVecC (B j))

/-- `GS_orthogonalisation` at complex scalars. -/
noncomputable def GS_orthogonalisationC {n : ℕ} (m : ℕ) (A : ColsC n)
    (leftColsToSkip : ℤ) : Option (ColsC n) :=
  if leftColsToSkipOk m leftColsToSkip then
    let p := treatFirstColC A leftColsToSkip.toNat
    some (forLoop gsStepC p.2 (m - p.2) p.1)
  else none

/-- A real vector reinterpreted as a complex one. -/
noncomputable def cvec {n : ℕ} (v : Vec n) : VecC n := fun i => ((v i : ℝ) : ℂ)

/-- A real matrix reinterpreted as a complex one. -/
noncomputable def complexify {n : ℕ} (A : Cols n) : ColsC n :=
  fun j => cvec (A j)

/-! ### Complex Gram–Schmidt: basic algebra -/

lemma gsStepC_eq {n : ℕ} (M : ColsC n) (k : ℕ) :
    gsStepC M k = Function.update M k
      (normalizeVecC
        (M k - ∑ i ∈ Finset.range k, dotc (M i) (M k) • M i)) := by
  unfold gsStepC
  rw [Function.update_idem, Function.update_same]

lemma normalizeVecC_of_unit {n : ℕ} {v : VecC n} (h : hdot v v = 1) :
    normalizeVecC v = v := by
  rw [normalizeVecC, h]
  norm_num

lemma hdot_smul_right {n : ℕ} (c : ℂ) (u v : VecC n) :
    hdot u (c • v) = c * hdot u v := by
  simp only [hdot, Pi.smul_apply, smul_eq_mul, Finset.mul_sum]
  exact Finset.sum_congr rfl fun i _ => by ring

/-- The 2 × 2 complex matrix with columns `(i, 0)` and `(1, 1)`. -/
noncomputable def cexCols : ColsC 2 :=
  fun j i => if j = 0 then (if (i : ℕ) = 0 then Complex.I else 0) else 1

/-- Counterexample to claim C5 as stated: `cexCols` has linearly
independent columns, yet after `GS_orthogonalisation(A, 0)` at complex
scalars the two columns have nonzero Hermitian inner product — the
projection coefficient `leftCols.transpose() * col(j)` does not
conjugate, so the subtraction does not remove the Hermitian component. -/
theorem GS_complex_hermitian_fails :
    LinearIndependent ℂ (fun j : Fin 2 => cexCols j) ∧
    ∃ B, GS_orthogonalisationC 2 cexCols 0 = some B ∧
      hdot (B 0) (B 1) ≠ 0 := by
  constructor
  · rw [Fintype.linearIndependent_iff]
    intro g hg j
    have h1 : g 1 = 0 := by
      simpa [cexCols, Fin.sum_univ_two] using congrFun hg 1
    have h0 : g 0 = 0 := by
      have h := congrFun hg 0
      simp [cexCols, Fin.sum_univ_two, h1] at h
      simpa [Complex.ext_iff] using h
    fin_cases j
    · exact h0
    · exact h1
  · have h00 : hdot (cexCols 0) (cexCols 0) = 1 := by
      simp [cexCols, hdot, Fin.sum_univ_two, Complex.star_def,
        Complex.conj_I, Complex.I_mul_I]
    have hGS : GS_orthogonalisationC 2 cexCols 0 =
        some (gsStepC cexCols 1) := by
      rw [GS_orthogonalisationC,
        if_pos (leftColsToSkipOk_zero (by norm_num))]
      show some (forLoop gsStepC 1 1
        (Function.update cexCols 0 (normalizeVecC (cexCols 0)))) = _
      rw [normalizeVecC_of_unit h00, Function.update_eq_self]
      rfl
    set w : VecC 2 := (fun i => if (i : ℕ) = 0 then 2 else 1) with hwdef
    have hdotc01 : dotc (cexCols 0) (cexCols 1) = Complex.I := by
      simp [cexCols, dotc, Fin.sum_univ_two]
    have hw : cexCols 1 - ∑ i ∈ Finset.range 1,
        dotc (cexCols i) (cexCols 1) • cexCols i = w := by
      funext i
      rw [Finset.sum_range_one]
      show cexCols 1 i - dotc (cexCols 0) (cexCols 1) * cexCols 0 i = w i
      rw [hdotc01]
      fin_cases i
      · show (1 : ℂ) - Complex.I * Complex.I = 2
        rw [Complex.I_mul_I]
        norm_num
      · show (1 : ℂ) - Complex.I * 0 = 1
        rw [mul_zero, sub_zero]
    have hww : (hdot w w).re = 5 := by
      have : hdot w w = 5 := by
        simp [hdot, hwdef, Fin.sum_univ_two, Complex.star_def,
          Complex.conj_ofNat]
        norm_num
      rw [this]
      norm_num
    have hnw : normalizeVecC w = (((Real.sqrt 5 : ℝ) : ℂ))⁻¹ • w := by
      unfold normalizeVecC
      rw [hww, if_pos (by norm_num : (0 : ℝ) < 5)]
    have hB0 : gsStepC cexCols 1 0 = cexCols 0 := by
      rw [gsStepC_eq, Function.update_noteq (by norm_num : (0 : ℕ) ≠ 1)]
    have hB1 : gsStepC cexCols 1 1 = normalizeVecC
        (cexCols 1 - ∑ i ∈ Finset.range 1,
          dotc (cexCols i) (cexCols 1) • cexCols i) := by
      rw [gsStepC_eq, Function.update_same]
    have hinner : hdot (cexCols 0) w = (-2) * Complex.I := by
      simp [cexCols, hdot, hwdef, Fin.sum_univ_two, Complex.star_def,
        Complex.conj_I]
      ring
    refine ⟨gsStepC cexCols 1, hGS, ?_⟩
    rw [hB0, hB1, hw, hnw, hdot_smul_right, hinner]
    apply mul_ne_zero
    · apply inv_ne_zero
      rw [Ne, Complex.ofReal_eq_zero]
      exact ne_of_gt (Real.sqrt_pos.mpr (by norm_num))
    · exact mul_ne_zero (by norm_num) Complex.I_ne_zero

/-! ### Real-entried complex matrices reduce to the real case -/

lemma cvec_dotc {n : ℕ} (u v : Vec n) :
    dotc (cvec u) (cvec v) = ((dotp u v : ℝ) : ℂ) := by
  rw [dotc, dotp]
  push_cast
  rfl

lemma cvec_hdot {n : ℕ} (u v : Vec n) :
    hdot (cvec u) (cvec v) = ((dotp u v : ℝ) : ℂ) := by
  rw [hdot, dotp]
  push_cast
  simp [cvec, Complex.conj_ofReal]

lemma cvec_normalize {n : ℕ} (v : Vec n) :
    normalizeVecC (cvec v) = cvec (normalizeVec v) := by
  rw [normalizeVecC, normalizeVec, cvec_hdot, Complex.ofReal_re]
  by_cases h : 0 < dotp v v
  · rw [if_pos h, if_pos h]
    funext i
    show ((Real.sqrt (dotp v v) : ℝ) : ℂ)⁻¹ * cvec v i = _
    simp only [cvec, Pi.smul_apply, smul_eq_mul]
    push_cast
    rfl
  · rw [if_neg h, if_neg h]

lemma complexify_update {n : ℕ} (A : Cols n) (k : ℕ) (w : Vec n) :
    Function.update (complexify A) k (cvec w) =
      complexify (Function.update A k w) := by
  funext j
  by_cases hj : j = k
  · subst hj
    rw [Function.update_same]
    show _ = cvec (Function.update A j w j)
    rw [Function.update_same]
  · rw [Function.update_noteq hj]
    show complexify A j = cvec (Function.update A k w j)
    rw [Function.update_noteq hj]
    rfl

lemma gsStepC_complexify {n : ℕ} (A : Cols n) (k : ℕ) :
    gsStepC (complexify A) k = complexify (gsStep A k) := by
  rw [gsStepC_eq, gsStep_eq]
  have hsub : complexify A k - ∑ i ∈ Finset.range k,
      dotc (complexify A i) (complexify A k) • complexify A i =
      cvec (A k - ∑ i ∈ Finset.range k, dotp (A i) (A k) • A i) := by
    funext i'
    show cvec (A k) i' - (∑ i ∈ Finset.range k,
      dotc (cvec (A i)) (cvec (A k)) • cvec (A i)) i' = _
    rw [Finset.sum_apply]
    have hterm : ∀ i ∈ Finset.range k,
        (dotc (cvec (A i)) (cvec (A k)) • cvec (A i)) i' =
          ((dotp (A i) (A k) * A i i' : ℝ) : ℂ) := by
      intro i _
      show dotc (cvec (A i)) (cvec (A k)) * cvec (A i) i' = _
      rw [cvec_dotc]
      simp only [cvec]
      push_cast
      rfl
    rw [Finset.sum_congr rfl hterm]
    simp only [cvec]
    push_cast
    simp
  rw [hsub, cvec_normalize, complexify_update]

lemma forLoop_gsStepC_complexify {n : ℕ} :
    ∀ (t k : ℕ) (A : Cols n),
      forLoop gsStepC k t (complexify A) =
        complexify (forLoop gsStep k t A) := by
  intro t
  induction t with
  | zero => intro k A; rfl
  | succ t ih =>
    intro k A
    show forLoop gsStepC (k + 1) t (gsStepC (complexify A) k) = _
    rw [gsStepC_complexify, ih]
    rfl

lemma treatFirstColC_complexify {n : ℕ} (A : Cols n) (L : ℕ) :
    treatFirstColC (complexify A) L =
      (complexify (treatFirstCol A L).1, (treatFirstCol A L).2) := by
  rw [treatFirstColC, treatFirstCol]
  by_cases hL : L = 0
  · rw [if_pos hL, if_pos hL]
    show (Function.update (complexify A) 0 (normalizeVecC (cvec (A 0))), 1) = _
    rw [cvec_normalize, complexify_update]
  · rw [if_neg hL, if_neg hL]

lemma GS_complexify {n : ℕ} (m : ℕ) (A : Cols n) (L : ℤ) :
    GS_orthogonalisationC m (complexify A) L =
      (GS_orthogonalisation m A L).map complexify := by
  rw [GS_orthogonalisationC, GS_orthogonalisation]
  by_cases hok : leftColsToSkipOk m L
  · rw [if_pos hok, if_pos hok, Option.map_some', treatFirstColC_complexify]
    show some (forLoop gsStepC (treatFirstCol A L.toNat).2
      (m - (treatFirstCol A L.toNat).2)
      (complexify (treatFirstCol A L.toNat).1)) = _
    rw [forLoop_gsStepC_complexify]
  · rw [if_neg hok, if_neg hok]
    rfl

/-- Claim C5 (amended): at complex scalars, `GS_orthogonalisation(A, 0)`
does **not** achieve the Hermitian postcondition in general (its
projection coefficients use the non-conjugating transpose — see the
counterexample); the postcondition does hold, matching the real case,
for every complex matrix whose entries are all real and whose columns
are linearly independent. -/
theorem GS_complex_real_entries_orthonormal {n m : ℕ} (A : Cols n)
    (hm : 0 < m) (hli : LinearIndependent ℝ fun j : Fin m => A j) :
    ∃ B, GS_orthogonalisationC m (complexify A) 0 = some B ∧
      ∀ j k, j < m → k < m →
        hdot (B j) (B k) = if j = k then 1 else 0 := by
  have hA := IndepCols.of_linearIndependent hli
  refine ⟨complexify (forLoop gsStep 0 m A), ?_, ?_⟩
  · rw [GS_complexify, GS_zero_eq A hm, Option.map_some']
  · intro j k hj hk
    have horth := (gsLoop_stepInv hA).ortho j k hj hk
    show hdot (cvec (forLoop gsStep 0 m A j))
      (cvec (forLoop gsStep 0 m A k)) = _
    rw [cvec_hdot, horth]
    by_cases hjk : j = k <;> simp [hjk]

/-- Witness for `GS_complex_real_entries_orthonormal` at the
complexified 2 × 2 identity matrix. -/
theorem GS_complex_real_entries_orthonormal_witness :
    ∃ B, GS_orthogonalisationC 2
        (complexify fun j (i : Fin 2) => if (i : ℕ) = j then (1 : ℝ) else 0)
        0 = some B ∧
      ∀ j k, j < 2 → k < 2 →
        hdot (B j) (B k) = if j = k then 1 else 0 :=
  GS_complex_real_entries_orthonormal _ (by norm_num) (by
    rw [Fintype.linearIndependent_iff]
    intro g hg j
    have h0 : g 0 = 0 := by simpa [Fin.sum_univ_two] using congrFun hg 0
    have h1 : g 1 = 0 := by simpa [Fin.sum_univ_two] using congrFun hg 1
    fin_cases j
    · exact h0
    · exact h1)

end Spectra
